import Mathlib

/-!
Shallow embedding of `parser.py` from the timelog repository.

Timestamps in the aggregation and range-query layers are represented as
`Int` (minutes); the source stores minute-precision `datetime` values whose
ordering and subtraction behave exactly like this representation.
The parsing layer models the calendar `datetime` structure explicitly.
-/

/-- A parsed, non-blank timelog entry as consumed by `Query` and `Extractor`:
the dict `{'dt': ..., 'comment': ...}` of `LazyTimelog.parse`. -/
structure Entry where
  dt : Int
  comment : String
deriving DecidableEq, Inhabited, Repr

/-- Two adjacent asterisks somewhere in the character list: the substring
test `'**' in comment` of the source. -/
def hasStars : List Char → Bool
  | a :: b :: rest => (a = '*' && b = '*') || hasStars (b :: rest)
  | _ => false

/-- `'**' in entry['comment']` from `Extractor.sum` / `Extractor.by_comment`. -/
def hasMarker (s : String) : Bool := hasStars s.data

/-- The loop of `Extractor.sum` (parser.py lines 147-155): accumulator `x`,
running `last` entry, iterating over the data. -/
def sumLoop : Int → Option Entry → List Entry → Int
  | x, _, [] => x
  | x, none, e :: rest => sumLoop x (some e) rest
  | x, some p, e :: rest =>
      sumLoop (if hasMarker e.comment then x else x + (e.dt - p.dt)) (some e) rest

/-- `Extractor.sum` (parser.py lines 147-155). -/
def Extractor.sum (l : List Entry) : Int := sumLoop 0 none l

/-- Association-list model of the Python dict update in `Extractor.by_comment`:
`d[k] += v` when the key is present (updated in place, position kept),
`d[k] = v` appended otherwise (dict insertion order). -/
def updD : List (String × Int) → String → Int → List (String × Int)
  | [], k, v => [(k, v)]
  | (a, b) :: t, k, v => if a = k then (a, b + v) :: t else (a, b) :: updD t k v

/-- The loop of `Extractor.by_comment` (parser.py lines 157-169). -/
def bcLoop : List (String × Int) → Option Entry → List Entry → List (String × Int)
  | d, _, [] => d
  | d, none, e :: rest => bcLoop d (some e) rest
  | d, some p, e :: rest =>
      bcLoop (if hasMarker e.comment then d else updD d e.comment (e.dt - p.dt))
        (some e) rest

/-- `Extractor.by_comment` (parser.py lines 157-169), the dict as an
association list in insertion order. -/
def Extractor.by_comment (l : List Entry) : List (String × Int) := bcLoop [] none l

/-- Python slice start/stop normalisation for `data[i:]` / `data[:i]`:
a negative index counts from the end, clamped at 0. -/
def pyIdx (n : Nat) (i : Int) : Nat :=
  if 0 ≤ i then i.toNat else ((n : Int) + i).toNat

/-- Python `data[:i]`. -/
def pyTake (l : List α) (i : Int) : List α := l.take (pyIdx l.length i)

/-- Python `data[i:]`. -/
def pyDrop (l : List α) (i : Int) : List α := l.drop (pyIdx l.length i)

/-- The `while high - low > 1` binary-search loop of `Query.split`
(parser.py lines 96-101), with explicit fuel; each iteration strictly
narrows `high - low`, so any `fuel ≥ high - low` reproduces the loop. -/
def bsLoop (get : Nat → Int) (dtc : Int) : Nat → Nat → Nat → Nat
  | 0, _, high => high
  | fuel + 1, low, high =>
      if high - low > 1 then
        let new := (low + high) / 2
        if get new ≤ dtc then bsLoop get dtc fuel new high
        else bsLoop get dtc fuel low new
      else high

/-- `Query` state (parser.py lines 84-87): the window `data` of indices into
the timelog, and the timelog itself (entries as parsed dicts). -/
structure Query where
  timelog : List Entry
  data : List Nat
deriving DecidableEq, Repr

/-- The inner `get` closure of `Query.split` (parser.py lines 93-94):
`self.timelog[self.data[i]]['dt']`. -/
def Query.getDt (q : Query) (i : Nat) : Int :=
  (q.timelog.getD (q.data.getD i 0) default).dt

/-- `Query.split` (parser.py lines 89-106).  `low = 0`, `high = len(data) - 1`
(which is `-1` on an empty window), the binary-search loop, then the slice
`data[high:]` or `data[:high]`. -/
def Query.split (q : Query) (dtc : Int) (after : Bool) : Query :=
  let n := q.data.length
  let high : Int := if n = 0 then -1 else (bsLoop q.getDt dtc n 0 (n - 1) : Nat)
  if after then { q with data := pyDrop q.data high }
  else { q with data := pyTake q.data high }

/-- `Query.before` (parser.py lines 108-109). -/
def Query.before (q : Query) (dtc : Int) : Query := q.split dtc false

/-- `Query.after` (parser.py lines 111-112). -/
def Query.after (q : Query) (dtc : Int) : Query := q.split dtc true

/-- `Query.all` (parser.py lines 138-139): the entries at the window's
indices, in window order. -/
def Query.all (q : Query) : List Entry :=
  q.data.map (fun i => q.timelog.getD i default)

/-- The `datetime` value of Python at minute-or-finer precision, as produced
by `strptime` and `datetime_add`. -/
structure PyDateTime where
  year : Nat
  month : Nat
  day : Nat
  hour : Nat
  minute : Nat
  second : Nat
  microsecond : Nat
deriving DecidableEq, Inhabited, Repr

/-- Gregorian leap-year rule used by Python's `datetime`. -/
def isLeap (y : Nat) : Bool := y % 4 = 0 && (y % 100 != 0 || y % 400 = 0)

/-- Days in a month, as validated by Python's `datetime` constructor. -/
def daysInMonth (y m : Nat) : Nat :=
  if m = 2 then (if isLeap y then 29 else 28)
  else if m = 4 || m = 6 || m = 9 || m = 11 then 30
  else 31

/-- Python's `datetime(year, month, day, hour, minute, second, microsecond)`
constructor: `none` models the `ValueError` on out-of-range fields
(`MINYEAR = 1`, `MAXYEAR = 9999`, day checked against the month's length). -/
def pyDatetime (year month day hour minute second microsecond : Int) :
    Option PyDateTime :=
  if 1 ≤ year ∧ year ≤ 9999 ∧ 1 ≤ month ∧ month ≤ 12 ∧
     1 ≤ day ∧ day ≤ (daysInMonth year.toNat month.toNat : Int) ∧
     0 ≤ hour ∧ hour ≤ 23 ∧ 0 ≤ minute ∧ minute ≤ 59 ∧
     0 ≤ second ∧ second ≤ 59 ∧ 0 ≤ microsecond ∧ microsecond ≤ 999999
  then some ⟨year.toNat, month.toNat, day.toNat, hour.toNat, minute.toNat,
    second.toNat, microsecond.toNat⟩
  else none

/-- One decimal digit, as matched by `\d` in Python's `_strptime` regex. -/
def readDigit (c : Char) : Option Nat :=
  if '0' ≤ c ∧ c ≤ '9' then some (c.toNat - 48) else none

/-- A one-or-two-digit field of `_strptime`: the regex alternation matches
two digits when their value lies in `[lo2, hi2]`, otherwise one digit with
value in `[lo1, hi1]` (month `1[0-2]|0[1-9]|[1-9]`, day `3[01]|[12]\d|0[1-9]|[1-9]`,
hour `2[0-3]|[0-1]\d|\d`, minute `[0-5]\d|\d`). -/
def read2 (lo2 hi2 lo1 hi1 : Nat) : List Char → Option (Nat × List Char)
  | c1 :: c2 :: rest =>
    (match readDigit c1, readDigit c2 with
     | some d1, some d2 =>
        let v := d1 * 10 + d2
        if lo2 ≤ v ∧ v ≤ hi2 then some (v, rest)
        else if lo1 ≤ d1 ∧ d1 ≤ hi1 then some (d1, c2 :: rest) else none
     | some d1, none =>
        if lo1 ≤ d1 ∧ d1 ≤ hi1 then some (d1, c2 :: rest) else none
     | none, _ => none)
  | [c1] =>
    (match readDigit c1 with
     | some d1 => if lo1 ≤ d1 ∧ d1 ≤ hi1 then some (d1, []) else none
     | none => none)
  | [] => none

/-- The exactly-four-digit `%Y` field of `_strptime` (regex `\d\d\d\d`). -/
def read4 : List Char → Option (Nat × List Char)
  | a :: b :: c :: d :: rest =>
    (match readDigit a, readDigit b, readDigit c, readDigit d with
     | some x1, some x2, some x3, some x4 =>
        some (((x1 * 10 + x2) * 10 + x3) * 10 + x4, rest)
     | _, _, _, _ => none)
  | _ => none

/-- A literal separator character of the format string. -/
def expectChar (c : Char) : List Char → Option (List Char)
  | [] => none
  | a :: rest => if a = c then some rest else none

/-- `datetime.strptime(s, '%Y-%m-%d %H:%M')`: match the whole string
(`none` also models the "unconverted data remains" error), then build the
datetime through the validating constructor. -/
def strptimeDT (l : List Char) : Option PyDateTime :=
  (read4 l).bind fun yr =>
  (expectChar '-' yr.2).bind fun r1 =>
  (read2 1 12 1 9 r1).bind fun mor =>
  (expectChar '-' mor.2).bind fun r2 =>
  (read2 1 31 1 9 r2).bind fun dr =>
  (expectChar ' ' dr.2).bind fun r3 =>
  (read2 0 23 0 9 r3).bind fun hr =>
  (expectChar ':' hr.2).bind fun r4 =>
  (read2 0 59 0 9 r4).bind fun mir =>
  match mir.2 with
  | [] => pyDatetime yr.1 mor.1 dr.1 hr.1 mir.1 0 0
  | _ => none

/-- `s.split(': ', 1)` when the separator occurs: the text before the first
occurrence of `': '` and the text after it; `none` when there is no
occurrence (so the two-variable unpacking in the source raises). -/
def splitSep : List Char → Option (List Char × List Char)
  | [] => none
  | [_] => none
  | a :: b :: rest =>
    if a = ':' ∧ b = ' ' then some ([], rest)
    else (splitSep (b :: rest)).map (fun p => (a :: p.1, p.2))

/-- `ParseError` (parser.py lines 10-16): the line index and the message of
the underlying exception. -/
structure ParseError where
  line : Nat
  msg : String
deriving DecidableEq, Repr

/-- The result of a successful parse of one line: the `EMPTY_LINE` sentinel
or the entry dict. -/
inductive Parsed where
  | blank : Parsed
  | entry : PyDateTime → String → Parsed
deriving DecidableEq, Repr

/-- `LazyTimelog.parse` (parser.py lines 42-54).  Any exception inside the
`try` block — including the `IndexError` of `self._src[i]`, the unpacking
failure of `split`, and the `strptime` failure — is re-raised as
`ParseError(i, str(e))`. -/
def LazyTimelog.parse (src : List String) (i : Nat) : Except ParseError Parsed :=
  match src.get? i with
  | none => .error ⟨i, "tuple index out of range"⟩
  | some s =>
    if s = "" then .ok .blank
    else match splitSep s.data with
      | none => .error ⟨i, "not enough values to unpack (expected 2, got 1)"⟩
      | some (t, c) =>
        match strptimeDT t with
        | none => .error ⟨i, "time data does not match format Y-m-d H:M"⟩
        | some dt => .ok (.entry dt (String.mk c))

/-- `LazyTuple.__getitem__` (parser.py lines 33-36): if the cache slot is
`None`, call `parse` and store the result; the third component counts how
often the parse method ran during this access.  A raised `ParseError`
leaves the cache untouched (the assignment never happens). -/
def LazyTuple.getItem (parseF : Nat → Except ParseError Parsed)
    (cache : List (Option Parsed)) (i : Nat) :
    Except ParseError Parsed × List (Option Parsed) × Nat :=
  match cache.getD i none with
  | some v => (.ok v, cache, 0)
  | none =>
    match parseF i with
    | .error e => (.error e, cache, 1)
    | .ok v => (.ok v, cache.set i (some v), 1)

/-- `datetime_add` (parser.py lines 58-74) restricted to the `months`
argument; with all `timedelta` arguments zero, lines 60-66 add
`timedelta(0)` and leave `dt` unchanged.  Zero-based month arithmetic with
`divmod(month - 1, 12)` (Python floor division and nonnegative remainder),
then the validating `datetime` constructor on the preserved fields. -/
def datetime_add (dt : PyDateTime) (months : Int) : Option PyDateTime :=
  let month : Int := (dt.month : Int) + months
  let dv : Int := (month - 1).ediv 12
  let month2 : Int := (month - 1).emod 12 + 1
  let year : Int := (dt.year : Int) + dv
  pyDatetime year month2 (dt.day : Int) (dt.hour : Int) (dt.minute : Int)
    (dt.second : Int) (dt.microsecond : Int)

example : LazyTimelog.parse ["2024-01-02 03:04: a: b"] 0 =
    .ok (.entry ⟨2024, 1, 2, 3, 4, 0, 0⟩ "a: b") := rfl
example : LazyTimelog.parse [""] 0 = .ok .blank := rfl
example : ∃ m, LazyTimelog.parse ["nope"] 0 = .error ⟨0, m⟩ :=
  ⟨"not enough values to unpack (expected 2, got 1)", rfl⟩
example : ∃ m, LazyTimelog.parse ["2024-02-30 03:04: x"] 0 = .error ⟨0, m⟩ :=
  ⟨"time data does not match format Y-m-d H:M", rfl⟩
example : datetime_add ⟨2024, 11, 15, 1, 2, 3, 4⟩ 3 =
    some ⟨2025, 2, 15, 1, 2, 3, 4⟩ := by decide
example : datetime_add ⟨2024, 1, 31, 0, 0, 0, 0⟩ 1 = none := by decide
example : datetime_add ⟨2024, 3, 10, 0, 0, 0, 0⟩ (-4) =
    some ⟨2023, 11, 10, 0, 0, 0, 0⟩ := by decide

/-! ## Spec-side definitions (formalising the claims' wording) -/

/-- The consecutive pairs `(prev, curr)` of a sequence, per the spec's
pairwise walk. -/
def consecPairs (l : List Entry) : List (Entry × Entry) := l.zip l.tail

/-- Spec wording of `sum()`: total over consecutive pairs of
`curr.dt - prev.dt`, skipping pairs whose later comment carries the
marker. -/
def claimSum (l : List Entry) : Int :=
  (((consecPairs l).filter (fun pc => !hasMarker pc.2.comment)).map
    (fun pc => pc.2.dt - pc.1.dt)).sum

/-- Spec wording of `byComment()`: the unmarked consecutive pairs whose
later comment equals `k`. -/
def keyPairs (l : List Entry) (k : String) : List (Entry × Entry) :=
  (l.zip l.tail).filter (fun pc => !hasMarker pc.2.comment && pc.2.comment = k)

/-! ## Helper lemmas: aggregation -/

/-- Gap contributions of the tail walk once `last` is `p`. -/
def gaps (p : Entry) : List Entry → Int
  | [] => 0
  | e :: rest => (if hasMarker e.comment then 0 else e.dt - p.dt) + gaps e rest

theorem sumLoop_some (l : List Entry) : ∀ (x : Int) (p : Entry),
    sumLoop x (some p) l = x + gaps p l := by
  induction l with
  | nil => intro x p; simp [sumLoop, gaps]
  | cons e rest ih =>
    intro x p
    by_cases hm : hasMarker e.comment <;> simp [sumLoop, gaps, hm, ih] <;> ring

theorem claimSum_cons (rest : List Entry) : ∀ e : Entry,
    claimSum (e :: rest) = gaps e rest := by
  induction rest with
  | nil => intro e; simp [claimSum, consecPairs, gaps]
  | cons f r ih =>
    intro e
    by_cases hm : hasMarker f.comment <;>
      simp [claimSum, consecPairs, gaps, hm] <;>
      have h2 := ih f <;>
      simp [claimSum, consecPairs, hm] at h2 <;>
      omega

theorem gaps_telescope (rest : List Entry) : ∀ e : Entry,
    (∀ f ∈ rest, hasMarker f.comment = false) →
    gaps e rest = ((e :: rest).getLast (List.cons_ne_nil e rest)).dt - e.dt := by
  induction rest with
  | nil => intro e _; simp [gaps]
  | cons f r ih =>
    intro e hcl
    have hf : hasMarker f.comment = false := hcl f (List.mem_cons_self f r)
    have hr : ∀ g ∈ r, hasMarker g.comment = false :=
      fun g hg => hcl g (List.mem_cons_of_mem f hg)
    have h2 := ih f hr
    have h3 : gaps e (f :: r) = (f.dt - e.dt) + gaps f r := by simp [gaps, hf]
    rw [List.getLast_cons (List.cons_ne_nil f r), h3, h2]
    omega

/-- Claim C2 instantiated: `Extractor.sum` agrees with the spec's pairwise
description, is zero on empty and singleton inputs, and telescopes to
last-minus-first on marker-free chronological input. -/
theorem c2_extractor_sum (l : List Entry) :
    Extractor.sum l = claimSum l ∧
    Extractor.sum ([] : List Entry) = 0 ∧
    (∀ e : Entry, Extractor.sum [e] = 0) ∧
    ∀ (h : l ≠ []), (l.map Entry.dt).Pairwise (· < ·) →
      (∀ e ∈ l, hasMarker e.comment = false) →
      Extractor.sum l = (l.getLast h).dt - (l.head h).dt := by
  refine ⟨?_, rfl, fun e => rfl, ?_⟩
  · cases l with
    | nil => rfl
    | cons e rest =>
      show sumLoop 0 (some e) rest = claimSum (e :: rest)
      rw [sumLoop_some, claimSum_cons]; omega
  · intro h _ hclean
    cases l with
    | nil => exact absurd rfl h
    | cons e rest =>
      show sumLoop 0 (some e) rest = _
      rw [sumLoop_some]
      have := gaps_telescope rest e (fun f hf =>
        hclean f (List.mem_cons_of_mem e hf))
      simp [this]

theorem c2_extractor_sum_witness :
    Extractor.sum [⟨1, "a"⟩, ⟨5, "b"⟩] = 4 := by
  have h := (c2_extractor_sum [⟨1, "a"⟩, ⟨5, "b"⟩]).2.2.2 (by decide)
    (by decide) (by decide)
  rw [h]; decide

/-! ## Helper lemmas: by_comment totals and keys -/

theorem valSum_updD (d : List (String × Int)) : ∀ (k : String) (v : Int),
    ((updD d k v).map Prod.snd).sum = (d.map Prod.snd).sum + v := by
  induction d with
  | nil => intro k v; simp [updD]
  | cons a t ih =>
    intro k v
    obtain ⟨x, y⟩ := a
    by_cases hx : x = k <;> simp [updD, hx, ih] <;> ring

theorem bcLoop_valSum (l : List Entry) : ∀ (d : List (String × Int)) (p : Entry),
    ((bcLoop d (some p) l).map Prod.snd).sum = (d.map Prod.snd).sum + gaps p l := by
  induction l with
  | nil => intro d p; simp [bcLoop, gaps]
  | cons e rest ih =>
    intro d p
    by_cases hm : hasMarker e.comment <;>
      simp [bcLoop, gaps, hm, ih, valSum_updD] <;> ring

/-- Claim C9: the total of `by_comment()`'s values equals `sum()`. -/
theorem c9_sum_eq_by_comment_total (l : List Entry) :
    Extractor.sum l = ((Extractor.by_comment l).map Prod.snd).sum := by
  cases l with
  | nil => rfl
  | cons e rest =>
    show sumLoop 0 (some e) rest = ((bcLoop [] (some e) rest).map Prod.snd).sum
    rw [sumLoop_some, bcLoop_valSum]
    simp

theorem updD_keys_clean (d : List (String × Int)) :
    ∀ (k : String) (v : Int), hasMarker k = false →
    (d.all fun p => !hasMarker p.1) = true →
    ((updD d k v).all fun p => !hasMarker p.1) = true := by
  induction d with
  | nil => intro k v hk _; simp [updD, hk]
  | cons a t ih =>
    intro k v hk hall
    obtain ⟨x, y⟩ := a
    simp only [List.all_cons, Bool.and_eq_true] at hall
    by_cases hx : x = k <;>
      simp [updD, hx, hk, hall.1, hall.2, ih k v hk hall.2]

theorem bcLoop_keys_clean (l : List Entry) :
    ∀ (d : List (String × Int)) (p : Entry),
    (d.all fun p => !hasMarker p.1) = true →
    ((bcLoop d (some p) l).all fun p => !hasMarker p.1) = true := by
  induction l with
  | nil => intro d p h; simpa [bcLoop] using h
  | cons e rest ih =>
    intro d p h
    by_cases hm : hasMarker e.comment
    · simpa [bcLoop, hm] using ih d e h
    · have hm' : hasMarker e.comment = false := by
        simpa using hm
      simpa [bcLoop, hm'] using
        ih (updD d e.comment (e.dt - p.dt)) e
          (updD_keys_clean d e.comment (e.dt - p.dt) hm' h)

/-- Claim C10: no key of `by_comment()` carries the `**` marker. -/
theorem c10_no_marker_keys (l : List Entry) :
    ((Extractor.by_comment l).all fun p => !hasMarker p.1) = true := by
  cases l with
  | nil => rfl
  | cons e rest => exact bcLoop_keys_clean rest [] e rfl

/-- Claim C8: on the same query state, the `before` window followed by the
`after` window is exactly the original window. -/
theorem c8_split_complement (q : Query) (dtc : Int) :
    (q.before dtc).data ++ (q.after dtc).data = q.data := by
  show (q.split dtc false).data ++ (q.split dtc true).data = q.data
  simp only [Query.split, if_pos, if_neg, Bool.false_eq_true, not_false_iff,
    ite_true, ite_false]
  exact List.take_append_drop _ _

/-! ## Helper lemmas: by_comment lookup -/

/-- Contributions to key `k` of the tail walk once `last` is `p`. -/
def sumFor (k : String) : Entry → List Entry → Int
  | _, [] => 0
  | p, e :: rest =>
      (if !hasMarker e.comment && e.comment = k then e.dt - p.dt else 0) +
        sumFor k e rest

/-- Whether the tail walk ever writes to key `k`. -/
def hasKeyFrom (k : String) : List Entry → Bool
  | [] => false
  | e :: rest => (!hasMarker e.comment && e.comment = k) || hasKeyFrom k rest

theorem lookup_updD_self (d : List (String × Int)) : ∀ (k : String) (v : Int),
    List.lookup k (updD d k v) = some (((List.lookup k d).getD 0) + v) := by
  induction d with
  | nil => intro k v; simp [updD, List.lookup]
  | cons a t ih =>
    intro k v
    obtain ⟨x, y⟩ := a
    by_cases hx : x = k
    · subst hx
      simp [updD, List.lookup, ih]
    · have hb : (k == x) = false := beq_eq_false_iff_ne.mpr (Ne.symm hx)
      simp [updD, List.lookup, hx, hb, ih]

theorem lookup_updD_other (d : List (String × Int)) :
    ∀ (k k2 : String) (v : Int), k ≠ k2 →
    List.lookup k (updD d k2 v) = List.lookup k d := by
  induction d with
  | nil =>
    intro k k2 v hne
    have hb : (k == k2) = false := beq_eq_false_iff_ne.mpr hne
    simp [updD, List.lookup, hb]
  | cons a t ih =>
    intro k k2 v hne
    obtain ⟨x, y⟩ := a
    by_cases hx : x = k2
    · subst hx
      have hb : (k == x) = false := beq_eq_false_iff_ne.mpr hne
      simp [updD, List.lookup, hb]
    · by_cases hk : k = x
      · subst hk
        simp [updD, List.lookup, hx]
      · have hb : (k == x) = false := beq_eq_false_iff_ne.mpr hk
        simp [updD, List.lookup, hx, hb, ih k k2 v hne]

theorem sumFor_of_not_hasKey (l : List Entry) : ∀ (k : String) (p : Entry),
    hasKeyFrom k l = false → sumFor k p l = 0 := by
  induction l with
  | nil => intro k p _; rfl
  | cons e rest ih =>
    intro k p h
    simp only [hasKeyFrom, Bool.or_eq_false_iff] at h
    simp [sumFor, h.1, ih k e h.2]

theorem bcLoop_lookup (l : List Entry) :
    ∀ (d : List (String × Int)) (p : Entry) (k : String),
    List.lookup k (bcLoop d (some p) l) =
      if hasKeyFrom k l then some (((List.lookup k d).getD 0) + sumFor k p l)
      else List.lookup k d := by
  induction l with
  | nil => intro d p k; simp [bcLoop, hasKeyFrom]
  | cons e rest ih =>
    intro d p k
    by_cases hm : hasMarker e.comment
    · have : bcLoop d (some p) (e :: rest) = bcLoop d (some e) rest := by
        simp [bcLoop, hm]
      rw [this, ih d e k]
      simp [hasKeyFrom, sumFor, hm]
    · have hm' : hasMarker e.comment = false := by simpa using hm
      have hstep : bcLoop d (some p) (e :: rest) =
          bcLoop (updD d e.comment (e.dt - p.dt)) (some e) rest := by
        simp [bcLoop, hm']
      rw [hstep, ih (updD d e.comment (e.dt - p.dt)) e k]
      by_cases he : e.comment = k
      · subst he
        rw [lookup_updD_self]
        by_cases hk : hasKeyFrom e.comment rest
        · simp [hasKeyFrom, sumFor, hm', hk]
          omega
        · have hk' : hasKeyFrom e.comment rest = false := by simpa using hk
          simp [hasKeyFrom, sumFor, hm', hk',
            sumFor_of_not_hasKey rest e.comment e hk']
      · rw [lookup_updD_other d k e.comment (e.dt - p.dt) (Ne.symm he)]
        simp [hasKeyFrom, sumFor, hm', he]

theorem keyPairs_cons_eq (rest : List Entry) : ∀ (e : Entry) (k : String),
    (keyPairs (e :: rest) k = [] ↔ hasKeyFrom k rest = false) ∧
    ((keyPairs (e :: rest) k).map (fun pc => pc.2.dt - pc.1.dt)).sum =
      sumFor k e rest := by
  induction rest with
  | nil => intro e k; simp [keyPairs, hasKeyFrom, sumFor]
  | cons f r ih =>
    intro e k
    have h2 := ih f k
    by_cases hc : !hasMarker f.comment && f.comment = k <;>
      simp only [keyPairs, List.zip_cons_cons, List.tail_cons,
        List.filter_cons] at h2 ⊢ <;>
      simp [hc, hasKeyFrom, sumFor, h2.1, h2.2] <;>
      simp only [Bool.and_eq_true, Bool.not_eq_true'] at hc <;>
      simp [hc.1, hc.2]

/-- Claim C6: `by_comment()` maps each comment `k` to the accumulated gaps
of the unmarked consecutive pairs labelled `k` by their later entry, and
holds no other keys. -/
theorem c6_by_comment_lookup (l : List Entry) (k : String) :
    List.lookup k (Extractor.by_comment l) =
      if keyPairs l k = [] then none
      else some (((keyPairs l k).map (fun pc => pc.2.dt - pc.1.dt)).sum) := by
  cases l with
  | nil => simp [Extractor.by_comment, bcLoop, List.lookup, keyPairs]
  | cons e rest =>
    have hk := keyPairs_cons_eq rest e k
    have hbc : Extractor.by_comment (e :: rest) = bcLoop [] (some e) rest := rfl
    rw [hbc, bcLoop_lookup rest [] e k]
    by_cases h : hasKeyFrom k rest
    · have : ¬ keyPairs (e :: rest) k = [] := by
        rw [hk.1]; simp [h]
      simp [h, this, hk.2, List.lookup]
    · have h' : hasKeyFrom k rest = false := by simpa using h
      have : keyPairs (e :: rest) k = [] := hk.1.mpr h'
      simp [h', this, List.lookup]

/-! ## Helper lemmas: binary search and window partition -/

theorem bsLoop_bracket (get : Nat → Int) (dtc : Int) :
    ∀ (fuel low high : Nat), low < high → high - low ≤ fuel →
    get low ≤ dtc → dtc < get high →
    ∃ l', bsLoop get dtc fuel low high = l' + 1 ∧ low ≤ l' ∧ l' + 1 ≤ high ∧
      get l' ≤ dtc ∧ dtc < get (l' + 1) := by
  intro fuel
  induction fuel with
  | zero => intro low high hlh hfuel _ _; omega
  | succ fuel ih =>
    intro low high hlh hfuel hlo hhi
    by_cases hgl : high - low > 1
    · have hnew1 : low < (low + high) / 2 := by omega
      have hnew2 : (low + high) / 2 < high := by omega
      by_cases hcmp : get ((low + high) / 2) ≤ dtc
      · have hrec := ih ((low + high) / 2) high hnew2 (by omega) hcmp hhi
        obtain ⟨l', heq, h1, h2, h3, h4⟩ := hrec
        refine ⟨l', ?_, by omega, h2, h3, h4⟩
        rw [← heq]
        simp [bsLoop, hgl, hcmp]
      · have hcmp' : dtc < get ((low + high) / 2) := by omega
        have hrec := ih low ((low + high) / 2) hnew1 (by omega) hlo hcmp'
        obtain ⟨l', heq, h1, h2, h3, h4⟩ := hrec
        refine ⟨l', ?_, h1, by omega, h3, h4⟩
        rw [← heq]
        simp [bsLoop, hgl, hcmp]
    · have hhl : high = low + 1 := by omega
      refine ⟨low, ?_, le_refl low, by omega, hlo, by rwa [← hhl]⟩
      rw [hhl]
      simp [bsLoop]

theorem getD_mem_of_lt : ∀ (l : List Int) (j : Nat), j < l.length →
    l.getD j 0 ∈ l := by
  intro l
  induction l with
  | nil => intro j hj; simp at hj
  | cons a t ih =>
    intro j hj
    cases j with
    | zero => simp
    | succ j =>
      rw [List.getD_cons_succ]
      exact List.mem_cons_of_mem a (ih j (by simpa using hj))

theorem pairwise_le_getD : ∀ (l : List Int), l.Pairwise (· ≤ ·) →
    ∀ i j, i ≤ j → j < l.length → l.getD i 0 ≤ l.getD j 0 := by
  intro l
  induction l with
  | nil => intro _ i j _ hj; simp at hj
  | cons a t ih =>
    intro hp i j hij hj
    obtain ⟨ha, ht⟩ := List.pairwise_cons.mp hp
    cases i with
    | zero =>
      cases j with
      | zero => simp
      | succ j =>
        rw [List.getD_cons_zero, List.getD_cons_succ]
        exact ha _ (getD_mem_of_lt t j (by simpa using hj))
    | succ i =>
      cases j with
      | zero => omega
      | succ j =>
        rw [List.getD_cons_succ, List.getD_cons_succ]
        exact ih ht i j (by omega) (by simpa using hj)

theorem filter_eq_drop_of_iff (P : Entry → Bool) :
    ∀ (w : List Entry) (h : Nat),
    (∀ i, i < w.length → (P (w.getD i default) = true ↔ h ≤ i)) →
    w.filter P = w.drop h := by
  intro w
  induction w with
  | nil => intro h _; simp
  | cons e t ih =>
    intro h hcond
    cases h with
    | zero =>
      have he : P e = true := (hcond 0 (by simp)).mpr (le_refl 0)
      have ht : t.filter P = t := by
        rw [ih 0 (fun i hi => by
          simpa using hcond (i + 1) (by simpa using hi))]
        simp
      simp [List.filter_cons, he, ht]
    | succ h =>
      have he : P e = false := by
        have := hcond 0 (by simp)
        simp at this
        simpa using this
      have ht := ih h (fun i hi => by
        have := hcond (i + 1) (by simpa using hi)
        simpa [Nat.succ_le_succ_iff] using this)
      simp [List.filter_cons, he, ht]

theorem filter_eq_take_of_iff (P : Entry → Bool) :
    ∀ (w : List Entry) (h : Nat),
    (∀ i, i < w.length → (P (w.getD i default) = true ↔ h ≤ i)) →
    w.filter (fun e => !P e) = w.take h := by
  intro w
  induction w with
  | nil => intro h _; simp
  | cons e t ih =>
    intro h hcond
    cases h with
    | zero =>
      have he : P e = true := (hcond 0 (by simp)).mpr (le_refl 0)
      have ht : t.filter (fun e => !P e) = [] := by
        rw [ih 0 (fun i hi => by
          simpa using hcond (i + 1) (by simpa using hi))]
        simp
      simp [List.filter_cons, he, ht]
    | succ h =>
      have he : P e = false := by
        have := hcond 0 (by simp)
        simp at this
        simpa using this
      have ht := ih h (fun i hi => by
        have := hcond (i + 1) (by simpa using hi)
        simpa [Nat.succ_le_succ_iff] using this)
      simp [List.filter_cons, he, ht]

theorem getDt_eq_all (q : Query) (i : Nat) (h : i < q.data.length) :
    q.getDt i = (q.all.map Entry.dt).getD i 0 := by
  simp only [Query.getDt, Query.all, List.map_map]
  rw [List.getD_eq_get? q.data i 0, List.get?_eq_get h]
  rw [List.getD_eq_get? _ i 0, List.get?_map, List.get?_eq_get h]
  simp

theorem all_getD_dt (w : List Entry) (i : Nat) (h : i < w.length) :
    (w.map Entry.dt).getD i 0 = (w.getD i default).dt := by
  rw [List.getD_eq_get?, List.get?_map, List.get?_eq_get h,
    List.getD_eq_get?, List.get?_eq_get h]
  simp

theorem split_after_data (q : Query) (dtc : Int) (hn : q.data.length ≠ 0) :
    (q.split dtc true).data =
      q.data.drop (bsLoop q.getDt dtc q.data.length 0 (q.data.length - 1)) := by
  simp [Query.split, hn, pyDrop, pyIdx]

theorem split_before_data (q : Query) (dtc : Int) (hn : q.data.length ≠ 0) :
    (q.split dtc false).data =
      q.data.take (bsLoop q.getDt dtc q.data.length 0 (q.data.length - 1)) := by
  simp [Query.split, hn, pyTake, pyIdx]

theorem split_timelog (q : Query) (dtc : Int) (b : Bool) :
    (q.split dtc b).timelog = q.timelog := by
  unfold Query.split
  cases b <;> simp

/-- Claim C1, amended.  The source's binary search never probes window
positions 0 and `length - 1` and sends entries equal to the cutoff to the
`before` side, so the clean partition statement holds for windows of length
at least 2 whose first timestamp is `≤ dt` and last timestamp is `> dt`:
`after(dt)` keeps exactly the entries with timestamp `> dt` and
`before(dt)` exactly those with timestamp `≤ dt`. -/
theorem c1_split_boundary_amended (q : Query) (dtc : Int)
    (hn : 2 ≤ q.data.length)
    (hs : (q.all.map Entry.dt).Pairwise (· ≤ ·))
    (h0 : (q.all.map Entry.dt).getD 0 0 ≤ dtc)
    (hl : dtc < (q.all.map Entry.dt).getD (q.data.length - 1) 0) :
    (q.after dtc).all = q.all.filter (fun e => decide (dtc < e.dt)) ∧
    (q.before dtc).all = q.all.filter (fun e => decide (e.dt ≤ dtc)) := by
  have hn0 : q.data.length ≠ 0 := by omega
  have hlenall : q.all.length = q.data.length := by simp [Query.all]
  have hlendts : (q.all.map Entry.dt).length = q.data.length := by
    simp [hlenall]
  have hg0 : q.getDt 0 ≤ dtc := by
    rw [getDt_eq_all q 0 (by omega)]; exact h0
  have hgl : dtc < q.getDt (q.data.length - 1) := by
    rw [getDt_eq_all q _ (by omega)]; exact hl
  obtain ⟨l', heq, hl0, hl1, hle, hgt⟩ :=
    bsLoop_bracket q.getDt dtc q.data.length 0 (q.data.length - 1)
      (by omega) (by omega) hg0 hgl
  have hmono : ∀ i j, i ≤ j → j < q.data.length →
      (q.all.map Entry.dt).getD i 0 ≤ (q.all.map Entry.dt).getD j 0 :=
    fun i j hij hj => pairwise_le_getD _ hs i j hij (by omega)
  have hcond : ∀ i, i < q.all.length →
      ((fun e => decide (dtc < e.dt)) (q.all.getD i default) = true ↔
        l' + 1 ≤ i) := by
    intro i hi
    have hi' : i < q.data.length := by omega
    simp only [decide_eq_true_eq]
    rw [← all_getD_dt q.all i hi]
    constructor
    · intro hdi
      by_contra hni
      push_neg at hni
      have h1 : (q.all.map Entry.dt).getD i 0 ≤
          (q.all.map Entry.dt).getD l' 0 := hmono i l' (by omega) (by omega)
      have h2 := getDt_eq_all q l' (by omega)
      omega
    · intro hhi
      have h1 : (q.all.map Entry.dt).getD (l' + 1) 0 ≤
          (q.all.map Entry.dt).getD i 0 := hmono (l' + 1) i hhi hi'
      have h2 := getDt_eq_all q (l' + 1) (by omega)
      omega
  constructor
  · have hdata := split_after_data q dtc hn0
    rw [heq] at hdata
    show (q.split dtc true).all = _
    have hall : (q.split dtc true).all = q.all.drop (l' + 1) := by
      unfold Query.all
      rw [split_timelog, hdata, List.map_drop]
    rw [hall,
      ← filter_eq_drop_of_iff (fun e => decide (dtc < e.dt)) q.all (l' + 1) hcond]
  · have hdata := split_before_data q dtc hn0
    rw [heq] at hdata
    show (q.split dtc false).all = _
    have hall : (q.split dtc false).all = q.all.take (l' + 1) := by
      unfold Query.all
      rw [split_timelog, hdata, List.map_take]
    have hpq : ∀ a ∈ q.all,
        (decide (a.dt ≤ dtc)) = !decide (dtc < a.dt) := by
      intro a _
      by_cases hc : dtc < a.dt
      · simp [hc, not_le.mpr hc]
      · simp [hc, not_lt.mp hc]
    rw [hall, List.filter_congr hpq,
      ← filter_eq_take_of_iff (fun e => decide (dtc < e.dt)) q.all (l' + 1) hcond]

theorem c1_split_boundary_amended_witness :
    ((Query.mk [⟨1, "a"⟩, ⟨5, "b"⟩] [0, 1]).after 3).all =
      (Query.mk [⟨1, "a"⟩, ⟨5, "b"⟩] [0, 1]).all.filter
        (fun e => decide ((3 : Int) < e.dt)) ∧
    ((Query.mk [⟨1, "a"⟩, ⟨5, "b"⟩] [0, 1]).before 3).all =
      (Query.mk [⟨1, "a"⟩, ⟨5, "b"⟩] [0, 1]).all.filter
        (fun e => decide (e.dt ≤ (3 : Int))) :=
  c1_split_boundary_amended (Query.mk [⟨1, "a"⟩, ⟨5, "b"⟩] [0, 1]) 3
    (by decide) (by decide) (by decide) (by decide)

/-- Claim C1 as stated fails: on the ascending window `[1, 2, 3]` with
cutoff `2`, `after(2)` keeps only the entry with timestamp `3` — the entry
equal to the cutoff lands on the `before` side, not the `after` side. -/
theorem c1_counterexample :
    (((Query.mk [⟨1, "a"⟩, ⟨2, "b"⟩, ⟨3, "c"⟩] [0, 1, 2]).all.map
        Entry.dt).Pairwise (· ≤ ·)) ∧
    ¬ (((Query.mk [⟨1, "a"⟩, ⟨2, "b"⟩, ⟨3, "c"⟩] [0, 1, 2]).after 2).all =
        (Query.mk [⟨1, "a"⟩, ⟨2, "b"⟩, ⟨3, "c"⟩] [0, 1, 2]).all.filter
          (fun e => decide ((2 : Int) ≤ e.dt)) ∧
       ((Query.mk [⟨1, "a"⟩, ⟨2, "b"⟩, ⟨3, "c"⟩] [0, 1, 2]).before 2).all =
        (Query.mk [⟨1, "a"⟩, ⟨2, "b"⟩, ⟨3, "c"⟩] [0, 1, 2]).all.filter
          (fun e => decide (e.dt < (2 : Int)))) := by
  decide

/-! ## Lazy cache claims -/

theorem getD_set_self (l : List (Option Parsed)) : ∀ (i : Nat) (v : Parsed),
    i < l.length → (l.set i (some v)).getD i none = some v := by
  induction l with
  | nil => intro i v hi; simp at hi
  | cons a t ih =>
    intro i v hi
    cases i with
    | zero => simp
    | succ i => simpa using ih i v (by simpa using hi)

/-- Claim C4: a failing parse propagates the `ParseError`, leaves the cache
untouched (the slot stays empty), and therefore every subsequent access at
the same index parses again (count 1) and re-raises the same error. -/
theorem c4_parse_error_not_cached (src : List String)
    (cache : List (Option Parsed)) (i : Nat) (e : ParseError)
    (hi : i < cache.length)
    (hslot : cache.getD i none = none)
    (herr : LazyTimelog.parse src i = .error e) :
    LazyTuple.getItem (LazyTimelog.parse src) cache i = (.error e, cache, 1) ∧
    LazyTuple.getItem (LazyTimelog.parse src)
        (LazyTuple.getItem (LazyTimelog.parse src) cache i).2.1 i =
      (.error e, cache, 1) := by
  have h1 : LazyTuple.getItem (LazyTimelog.parse src) cache i =
      (.error e, cache, 1) := by
    unfold LazyTuple.getItem
    rw [hslot, herr]
  exact ⟨h1, by rw [h1]; exact h1⟩

theorem c4_parse_error_not_cached_witness :
    LazyTuple.getItem (LazyTimelog.parse ["bad"]) [none] 0 =
      (.error ⟨0, "not enough values to unpack (expected 2, got 1)"⟩,
        [none], 1) ∧
    LazyTuple.getItem (LazyTimelog.parse ["bad"])
        (LazyTuple.getItem (LazyTimelog.parse ["bad"]) [none] 0).2.1 0 =
      (.error ⟨0, "not enough values to unpack (expected 2, got 1)"⟩,
        [none], 1) :=
  c4_parse_error_not_cached ["bad"] [none] 0
    ⟨0, "not enough values to unpack (expected 2, got 1)"⟩
    (by decide) rfl rfl

/-- Claim C5: a populated cache slot is returned as stored with no parse
call; a successful parse is stored exactly once, and the next access reads
the stored value with no further parse call. -/
theorem c5_cache_write_once (src : List String)
    (cache : List (Option Parsed)) (i : Nat) (v : Parsed)
    (hi : i < cache.length) :
    (cache.getD i none = some v →
      LazyTuple.getItem (LazyTimelog.parse src) cache i = (.ok v, cache, 0)) ∧
    (cache.getD i none = none → LazyTimelog.parse src i = .ok v →
      LazyTuple.getItem (LazyTimelog.parse src) cache i =
        (.ok v, cache.set i (some v), 1) ∧
      LazyTuple.getItem (LazyTimelog.parse src) (cache.set i (some v)) i =
        (.ok v, cache.set i (some v), 0)) := by
  refine ⟨fun hslot => by unfold LazyTuple.getItem; rw [hslot], ?_⟩
  intro hslot hok
  refine ⟨by unfold LazyTuple.getItem; rw [hslot, hok], ?_⟩
  have hset := getD_set_self cache i v hi
  unfold LazyTuple.getItem
  rw [hset]

theorem c5_cache_write_once_witness :
    LazyTuple.getItem (LazyTimelog.parse [""]) [none] 0 =
      (.ok .blank, [some .blank], 1) ∧
    LazyTuple.getItem (LazyTimelog.parse [""]) [some .blank] 0 =
      (.ok .blank, [some .blank], 0) := by
  have h := (c5_cache_write_once [""] [none] 0 .blank (by decide)).2 rfl rfl
  simpa using h

/-! ## datetime_add claim -/

/-- Claim C7: adding `m` months maps month to
`(month + m - 1) mod 12 + 1` with the floor-quotient carried into the
year, preserves the day, hour, minute, second and microsecond, and — when
the target month is too short for the preserved day — the `datetime`
constructor rejects the result rather than clamping it. -/
theorem c7_datetime_add_months (dt : PyDateTime) (m : Int)
    (hmo1 : 1 ≤ dt.month) (hmo2 : dt.month ≤ 12) (hd1 : 1 ≤ dt.day)
    (hh : dt.hour ≤ 23) (hmi : dt.minute ≤ 59) (hs : dt.second ≤ 59)
    (hus : dt.microsecond ≤ 999999)
    (hY1 : 1 ≤ (dt.year : Int) + ((dt.month : Int) + m - 1).ediv 12)
    (hY2 : (dt.year : Int) + ((dt.month : Int) + m - 1).ediv 12 ≤ 9999) :
    (dt.day ≤ daysInMonth
        ((dt.year : Int) + ((dt.month : Int) + m - 1).ediv 12).toNat
        (((dt.month : Int) + m - 1).emod 12 + 1).toNat →
      datetime_add dt m = some
        ⟨((dt.year : Int) + ((dt.month : Int) + m - 1).ediv 12).toNat,
         (((dt.month : Int) + m - 1).emod 12 + 1).toNat,
         dt.day, dt.hour, dt.minute, dt.second, dt.microsecond⟩) ∧
    (daysInMonth ((dt.year : Int) + ((dt.month : Int) + m - 1).ediv 12).toNat
        (((dt.month : Int) + m - 1).emod 12 + 1).toNat < dt.day →
      datetime_add dt m = none) := by
  have hM0 : (0 : Int) ≤ ((dt.month : Int) + m - 1).emod 12 :=
    Int.emod_nonneg _ (by norm_num)
  have hM12 : ((dt.month : Int) + m - 1).emod 12 < 12 :=
    Int.emod_lt_of_pos _ (by norm_num)
  constructor
  · intro hday
    unfold datetime_add pyDatetime
    rw [if_pos]
    · simp
    · refine ⟨hY1, hY2, by omega, by omega, by exact_mod_cast hd1, ?_,
        by omega, by exact_mod_cast hh, by omega, by exact_mod_cast hmi,
        by omega, by exact_mod_cast hs, by omega, by exact_mod_cast hus⟩
      exact_mod_cast hday
  · intro hday
    unfold datetime_add pyDatetime
    rw [if_neg]
    intro hcond
    have := hcond.2.2.2.2.2.1
    have hle : dt.day ≤ daysInMonth
        ((dt.year : Int) + ((dt.month : Int) + m - 1).ediv 12).toNat
        (((dt.month : Int) + m - 1).emod 12 + 1).toNat := by exact_mod_cast this
    omega

theorem c7_datetime_add_months_witness :
    datetime_add ⟨2024, 11, 15, 1, 2, 3, 4⟩ 3 =
      some ⟨2025, 2, 15, 1, 2, 3, 4⟩ := by
  have h := (c7_datetime_add_months ⟨2024, 11, 15, 1, 2, 3, 4⟩ 3
    (by decide) (by decide) (by decide) (by decide) (by decide) (by decide)
    (by decide) (by decide) (by decide)).1 (by decide)
  rw [h]
  rfl

/-! ## Spec-side canonical timestamp formatting (for the parse claim) -/

/-- The character of one decimal digit. -/
def digitChar (d : Nat) : Char := Char.ofNat (48 + d)

/-- Two-digit zero-padded decimal rendering (for values up to 99). -/
def pad2 (n : Nat) : String :=
  String.mk [digitChar (n / 10 % 10), digitChar (n % 10)]

/-- Four-digit zero-padded decimal rendering (for values up to 9999). -/
def pad4 (n : Nat) : String :=
  String.mk [digitChar (n / 1000 % 10), digitChar (n / 100 % 10),
    digitChar (n / 10 % 10), digitChar (n % 10)]

/-- A timestamp in the spec's `YYYY-MM-DD HH:MM` shape. -/
def fmtDT (y mo d h mi : Nat) : String :=
  pad4 y ++ "-" ++ pad2 mo ++ "-" ++ pad2 d ++ " " ++ pad2 h ++ ":" ++ pad2 mi

/-- No occurrence of the separator `': '` inside the character list. -/
def noColonSpace : List Char → Bool
  | a :: b :: rest => !(a = ':' && b = ' ') && noColonSpace (b :: rest)
  | _ => true

/-! ## Helper lemmas: parsing -/

theorem digitChar_mod_ne_colon (n : Nat) : digitChar (n % 10) ≠ ':' := by
  have h : n % 10 < 10 := Nat.mod_lt _ (by norm_num)
  revert h
  generalize n % 10 = k
  intro h
  interval_cases k <;> decide

theorem digitChar_mod_ne_space (n : Nat) : digitChar (n % 10) ≠ ' ' := by
  have h : n % 10 < 10 := Nat.mod_lt _ (by norm_num)
  revert h
  generalize n % 10 = k
  intro h
  interval_cases k <;> decide

theorem readDigit_digitChar (d : Nat) (h : d ≤ 9) :
    readDigit (digitChar d) = some d := by
  interval_cases d <;> decide

theorem read2_pad2 (lo2 hi2 lo1 hi1 n : Nat) (rest : List Char)
    (h99 : n ≤ 99) (hlo : lo2 ≤ n) (hhi : n ≤ hi2) :
    read2 lo2 hi2 lo1 hi1 ((pad2 n).data ++ rest) = some (n, rest) := by
  have hd1 : readDigit (digitChar (n / 10 % 10)) = some (n / 10 % 10) :=
    readDigit_digitChar _ (by omega)
  have hd2 : readDigit (digitChar (n % 10)) = some (n % 10) :=
    readDigit_digitChar _ (by omega)
  have hv : n / 10 % 10 * 10 + n % 10 = n := by omega
  show read2 lo2 hi2 lo1 hi1
    (digitChar (n / 10 % 10) :: digitChar (n % 10) :: rest) = some (n, rest)
  rw [read2, hd1, hd2]
  simp only [hv]
  rw [if_pos ⟨hlo, hhi⟩]

theorem read4_pad4 (n : Nat) (rest : List Char) (h : n ≤ 9999) :
    read4 ((pad4 n).data ++ rest) = some (n, rest) := by
  have hd1 : readDigit (digitChar (n / 1000 % 10)) = some (n / 1000 % 10) :=
    readDigit_digitChar _ (by omega)
  have hd2 : readDigit (digitChar (n / 100 % 10)) = some (n / 100 % 10) :=
    readDigit_digitChar _ (by omega)
  have hd3 : readDigit (digitChar (n / 10 % 10)) = some (n / 10 % 10) :=
    readDigit_digitChar _ (by omega)
  have hd4 : readDigit (digitChar (n % 10)) = some (n % 10) :=
    readDigit_digitChar _ (by omega)
  have hv : ((n / 1000 % 10 * 10 + n / 100 % 10) * 10 + n / 10 % 10) * 10 +
      n % 10 = n := by omega
  show read4 (digitChar (n / 1000 % 10) :: digitChar (n / 100 % 10) ::
    digitChar (n / 10 % 10) :: digitChar (n % 10) :: rest) = some (n, rest)
  rw [read4, hd1, hd2, hd3, hd4]
  simp only [hv]

theorem splitSep_append (m : List Char) :
    ∀ (l : List Char), noColonSpace l = true →
    splitSep (l ++ ':' :: ' ' :: m) = some (l, m) := by
  intro l
  induction l with
  | nil =>
    intro _
    show splitSep (':' :: ' ' :: m) = some ([], m)
    rw [splitSep, if_pos ⟨rfl, rfl⟩]
  | cons a t ih =>
    intro hno
    cases t with
    | nil =>
      have h1 : splitSep (':' :: ' ' :: m) = some ([], m) := by
        rw [splitSep, if_pos ⟨rfl, rfl⟩]
      show splitSep (a :: ':' :: ' ' :: m) = some ([a], m)
      rw [splitSep, if_neg (fun hc => absurd hc.2 (by decide)), h1]
      rfl
    | cons b r =>
      simp only [noColonSpace, Bool.and_eq_true, Bool.not_eq_true',
        Bool.and_eq_false_iff] at hno
      have hno2 : noColonSpace (b :: r) = true := hno.2
      have hc : ¬(a = ':' ∧ b = ' ') := by
        rcases hno.1 with h | h
        · intro hab; rw [hab.1] at h; simp at h
        · intro hab; rw [hab.2] at h; simp at h
      show splitSep (a :: b :: (r ++ ':' :: ' ' :: m)) = some (a :: b :: r, m)
      have ih2 := ih hno2
      rw [List.cons_append] at ih2
      rw [splitSep, if_neg hc, ih2]
      rfl

theorem noColonSpace_fmtDT (y mo d h mi : Nat) :
    noColonSpace (fmtDT y mo d h mi).data = true := by
  show noColonSpace [digitChar (y / 1000 % 10), digitChar (y / 100 % 10),
    digitChar (y / 10 % 10), digitChar (y % 10), '-',
    digitChar (mo / 10 % 10), digitChar (mo % 10), '-',
    digitChar (d / 10 % 10), digitChar (d % 10), ' ',
    digitChar (h / 10 % 10), digitChar (h % 10), ':',
    digitChar (mi / 10 % 10), digitChar (mi % 10)] = true
  simp only [noColonSpace, Bool.and_eq_true, Bool.not_eq_true',
    Bool.and_eq_false_iff]
  refine ⟨?_, ?_, ?_, ?_, ?_, ?_, ?_, ?_, ?_, ?_, ?_, ?_, ?_, ?_, ?_, trivial⟩
  all_goals first
    | (left; exact decide_eq_false (digitChar_mod_ne_colon _))
    | (right; exact decide_eq_false (digitChar_mod_ne_space _))
    | (left; decide)
    | (right; decide)

theorem expectChar_cons (c : Char) (rest : List Char) :
    expectChar c (c :: rest) = some rest := by
  rw [expectChar, if_pos rfl]

theorem daysInMonth_le_31 (y mo : Nat) : daysInMonth y mo ≤ 31 := by
  unfold daysInMonth
  split_ifs <;> omega

theorem strptimeDT_fmt (y mo d h mi : Nat)
    (hy1 : 1 ≤ y) (hy2 : y ≤ 9999) (hmo1 : 1 ≤ mo) (hmo2 : mo ≤ 12)
    (hd1 : 1 ≤ d) (hd2 : d ≤ daysInMonth y mo) (hh : h ≤ 23) (hmi2 : mi ≤ 59) :
    strptimeDT (fmtDT y mo d h mi).data = some ⟨y, mo, d, h, mi, 0, 0⟩ := by
  have harg : (fmtDT y mo d h mi).data =
      (pad4 y).data ++ '-' :: ((pad2 mo).data ++ '-' :: ((pad2 d).data ++
        ' ' :: ((pad2 h).data ++ ':' :: ((pad2 mi).data ++ [])))) := rfl
  have e1 : ∀ rest, read4 ((pad4 y).data ++ rest) = some (y, rest) :=
    fun r => read4_pad4 y r hy2
  have e2 : ∀ rest, read2 1 12 1 9 ((pad2 mo).data ++ rest) = some (mo, rest) :=
    fun r => read2_pad2 1 12 1 9 mo r (by omega) hmo1 hmo2
  have e3 : ∀ rest, read2 1 31 1 9 ((pad2 d).data ++ rest) = some (d, rest) :=
    fun r => read2_pad2 1 31 1 9 d r
      (by have := daysInMonth_le_31 y mo; omega) hd1
      (le_trans hd2 (daysInMonth_le_31 y mo))
  have e4 : ∀ rest, read2 0 23 0 9 ((pad2 h).data ++ rest) = some (h, rest) :=
    fun r => read2_pad2 0 23 0 9 h r (by omega) (Nat.zero_le h) hh
  have e5 : ∀ rest, read2 0 59 0 9 ((pad2 mi).data ++ rest) = some (mi, rest) :=
    fun r => read2_pad2 0 59 0 9 mi r (by omega) (Nat.zero_le mi) hmi2
  rw [harg]
  unfold strptimeDT
  simp only [e1, Option.some_bind, expectChar_cons, e2, e3, e4, e5]
  unfold pyDatetime
  rw [if_pos]
  · simp
  · refine ⟨by exact_mod_cast hy1, by exact_mod_cast hy2,
      by exact_mod_cast hmo1, by exact_mod_cast hmo2,
      by exact_mod_cast hd1, ?_, by omega, by exact_mod_cast hh,
      by omega, by exact_mod_cast hmi2, by omega, by omega, by omega, by omega⟩
    simp only [Int.toNat_ofNat]
    exact_mod_cast hd2

/-- Claim C3: `parse` maps the empty line to the blank sentinel; maps
`"<timestamp>: <comment>"` with a valid `YYYY-MM-DD HH:MM` timestamp to the
entry holding the parsed timestamp and the full comment (which may itself
contain `": "`); and on any other non-empty line — no `": "` separator, or
a timestamp `strptime` rejects — it fails with a `ParseError` carrying the
line index and a cause message, with no other effect. -/
theorem c3_parse_contract (src : List String) (i : Nat) (s : String)
    (hsrc : src.get? i = some s) :
    (s = "" → LazyTimelog.parse src i = .ok .blank) ∧
    (∀ (y mo d h mi : Nat) (c : String),
      1 ≤ y → y ≤ 9999 → 1 ≤ mo → mo ≤ 12 → 1 ≤ d → d ≤ daysInMonth y mo →
      h ≤ 23 → mi ≤ 59 →
      s = fmtDT y mo d h mi ++ ": " ++ c →
      LazyTimelog.parse src i = .ok (.entry ⟨y, mo, d, h, mi, 0, 0⟩ c)) ∧
    (s ≠ "" →
      (splitSep s.data = none ∨
        ∃ t c, splitSep s.data = some (t, c) ∧ strptimeDT t = none) →
      ∃ msg, LazyTimelog.parse src i = .error ⟨i, msg⟩) := by
  refine ⟨?_, ?_, ?_⟩
  · intro hse
    simp only [LazyTimelog.parse, hsrc]
    rw [if_pos hse]
  · intro y mo d h mi c hy1 hy2 hmo1 hmo2 hd1 hd2 hh hmi2 hseq
    have hdata : s.data =
        (fmtDT y mo d h mi).data ++ ':' :: ' ' :: c.data := by
      rw [hseq, String.data_append, String.data_append]
      simp [List.append_assoc]
    have hne : s ≠ "" := by
      intro h0
      rw [h0] at hdata
      exact absurd hdata.symm (by simp)
    have hsplit : splitSep s.data =
        some ((fmtDT y mo d h mi).data, c.data) := by
      rw [hdata]
      exact splitSep_append c.data _ (noColonSpace_fmtDT y mo d h mi)
    have hst := strptimeDT_fmt y mo d h mi hy1 hy2 hmo1 hmo2 hd1 hd2 hh hmi2
    simp only [LazyTimelog.parse, hsrc]
    rw [if_neg hne]
    simp only [hsplit, hst]
  · intro hne hbad
    simp only [LazyTimelog.parse, hsrc]
    rw [if_neg hne]
    rcases hbad with hnone | ⟨t, c, hst, hsp⟩
    · simp only [hnone]
      exact ⟨_, rfl⟩
    · simp only [hst, hsp]
      exact ⟨_, rfl⟩

theorem c3_parse_contract_witness :
    LazyTimelog.parse ["", "2024-01-02 03:04: a: b", "nope"] 0 = .ok .blank ∧
    LazyTimelog.parse ["", "2024-01-02 03:04: a: b", "nope"] 1 =
      .ok (.entry ⟨2024, 1, 2, 3, 4, 0, 0⟩ "a: b") ∧
    (∃ msg, LazyTimelog.parse ["", "2024-01-02 03:04: a: b", "nope"] 2 =
      .error ⟨2, msg⟩) := by
  refine ⟨(c3_parse_contract ["", "2024-01-02 03:04: a: b", "nope"] 0
    "" rfl).1 rfl, ?_, ?_⟩
  · exact (c3_parse_contract ["", "2024-01-02 03:04: a: b", "nope"] 1
      "2024-01-02 03:04: a: b" rfl).2.1 2024 1 2 3 4 "a: b"
      (by decide) (by decide) (by decide) (by decide) (by decide) (by decide)
      (by decide) (by decide) (by decide)
  · exact (c3_parse_contract ["", "2024-01-02 03:04: a: b", "nope"] 2
      "nope" rfl).2.2 (by decide) (Or.inl rfl)
